import Mathlib

/-!
Verification development for the PromptDrafter core: a shallow embedding of
the wildcard value-list parser, the placeholder substitution engine, the
prompt cleaner, and the wildcard node's selection policies.

Python strings are modelled as `List Char`; insertion-ordered dictionaries as
association lists; the class-level sequential-index dictionary as a function
from keys to `Option Nat`.  Recursions that are not structural in the source
(regex scans, replace loops, the bracket-protection while loops) are given a
fuel parameter; the wrapper fixes the fuel to the input length, which always
suffices because every scan step consumes at least one character (and every
protection step removes at least one bracket character).
-/

/-- Character list of a string literal. -/
def strL (s : String) : List Char := s.data

/-- Whitespace test used by Python str.strip and the regex class backslash-s,
on the ASCII range (the program's inputs). -/
def isSpace (c : Char) : Bool :=
  c == ' ' || c == '\t' || c == '\n' || c == '\r' || c == '\x0b' || c == '\x0c'

/-- Python str.strip: drop whitespace at both ends. -/
def trim (l : List Char) : List Char :=
  ((l.dropWhile isSpace).reverse.dropWhile isSpace).reverse

/-- Python str.split for a one-character separator: keeps empty pieces, and
splitting the empty string yields one empty piece. -/
def splitOnChar (d : Char) : List Char → List (List Char)
  | [] => [[]]
  | c :: cs =>
    match splitOnChar d cs with
    | [] => [[c]]
    | r :: rs => if c = d then [] :: r :: rs else (c :: r) :: rs

/-- Python str.replace: replace all non-overlapping occurrences of `pat`,
scanning left to right.  Fuel variant; in this program `pat` is never empty,
so fuel equal to the subject length always suffices. -/
def replaceAllF : Nat → List Char → List Char → List Char → List Char
  | 0, s, _, _ => s
  | _ + 1, [], _, _ => []
  | fuel + 1, c :: cs, pat, new =>
    if pat.isPrefixOf (c :: cs) then
      new ++ replaceAllF fuel ((c :: cs).drop pat.length) pat new
    else c :: replaceAllF fuel cs pat new

/-- Python str.replace with sufficient fuel. -/
def replaceAll (s pat new : List Char) : List Char := replaceAllF s.length s pat new

namespace WildcardParser

/-- Character class of the placeholder identifier: letters, digits, underscore. -/
def isWordChar (c : Char) : Bool := c.isAlpha || c.isDigit || c == '_'

/-- Try to match the placeholder regex (open brace, the word `wildcard_`, one
or more word characters, close brace) at the head of `s`.  On success returns
the captured identifier and the remainder after the match; `10` is the length
of the literal head of the pattern. -/
def matchWildcardAt (s : List Char) : Option (List Char × List Char) :=
  if (strL "\x7bwildcard_").isPrefixOf s then
    let t := s.drop 10
    let name := t.takeWhile isWordChar
    match t.dropWhile isWordChar with
    | x :: rest => if x = '\x7d' ∧ name ≠ [] then some (name, rest) else none
    | [] => none
  else none

/-- re.findall over `WILDCARD_PATTERN`: scan left to right, on a match record
the captured identifier and resume after the match, otherwise advance one
character. -/
def findWildcardsF : Nat → List Char → List (List Char)
  | 0, _ => []
  | _ + 1, [] => []
  | fuel + 1, c :: cs =>
    match matchWildcardAt (c :: cs) with
    | some (name, rest) => name :: findWildcardsF fuel rest
    | none => findWildcardsF fuel cs

/-- All placeholder matches of a text, in scan order. -/
def findWildcards (s : List Char) : List (List Char) := findWildcardsF s.length s

/-- Order-preserving removal of duplicates, mirroring the seen-set loop of
`extract_wildcard_names`. -/
def dedupeAux (seen : List (List Char)) : List (List Char) → List (List Char)
  | [] => []
  | x :: xs => if x ∈ seen then dedupeAux seen xs else x :: dedupeAux (x :: seen) xs

/-- `WildcardParser.extract_wildcard_names`: all unique full placeholder names
(`wildcard_` plus identifier) in order of first occurrence. -/
def extract_wildcard_names (text : List Char) : List (List Char) :=
  dedupeAux [] ((findWildcards text).map (fun name => strL "wildcard_" ++ name))

/-- `WildcardParser.replace_wildcards`: first replace every supplied mapping
(accepting full or bare key names), then blank out every placeholder name
still found in the result.  The dict is an insertion-ordered association
list; replacement values are modelled as strings, for which the source's
`str(value) if value else ""` is the value itself (an empty value stays the
empty string). -/
def replace_wildcards (text : List Char) (values : List (List Char × List Char)) : List Char :=
  let result := values.foldl (fun r kv =>
    let pat := if (strL "wildcard_").isPrefixOf kv.1
      then '\x7b' :: kv.1 ++ ['\x7d']
      else strL "\x7bwildcard_" ++ kv.1 ++ ['\x7d']
    replaceAll r pat kv.2) text
  (extract_wildcard_names result).foldl
    (fun r name => replaceAll r ('\x7b' :: name ++ ['\x7d']) []) result

/-- Character is not a parenthesis. -/
def notParen (c : Char) : Bool := !(c == '(' || c == ')')

/-- Character is not a curly brace. -/
def notCurly (c : Char) : Bool := !(c == '\x7b' || c == '\x7d')

/-- re.search for the innermost-parenthesis regex (open paren, a run without
parens, close paren): first position where an open paren is followed by a
paren-free run and then a close paren.  Returns text before the match, the
match, and text after it. -/
def findInnerParen : List Char → Option (List Char × List Char × List Char)
  | [] => none
  | c :: cs =>
    let hit : Option (List Char × List Char) :=
      if c = '(' then
        match cs.dropWhile notParen with
        | x :: tl => if x = ')' then some ('(' :: cs.takeWhile notParen ++ [')'], tl) else none
        | [] => none
      else none
    match hit with
    | some (m, tl) => some ([], m, tl)
    | none =>
      match findInnerParen cs with
      | some (pre, m, post) => some (c :: pre, m, post)
      | none => none

/-- re.search for the innermost-curly regex with the negative lookahead: an
open brace NOT immediately followed by the literal `wildcard_`, a brace-free
run, and a close brace. -/
def findInnerCurly : List Char → Option (List Char × List Char × List Char)
  | [] => none
  | c :: cs =>
    let hit : Option (List Char × List Char) :=
      if c = '\x7b' ∧ ¬ (strL "wildcard_").isPrefixOf cs then
        match cs.dropWhile notCurly with
        | x :: tl => if x = '\x7d' then some ('\x7b' :: cs.takeWhile notCurly ++ ['\x7d'], tl) else none
        | [] => none
      else none
    match hit with
    | some (m, tl) => some ([], m, tl)
    | none =>
      match findInnerCurly cs with
      | some (pre, m, post) => some (c :: pre, m, post)
      | none => none

/-- Paren placeholder token for counter value `n`. -/
def parenPH (n : Nat) : List Char := strL "__PAREN_" ++ (Nat.repr n).data ++ strL "__"

/-- Curly placeholder token for counter value `n`. -/
def curlyPH (n : Nat) : List Char := strL "__CURLY_" ++ (Nat.repr n).data ++ strL "__"

/-- The while loop protecting parenthesized groups: repeatedly find the first
innermost group, record placeholder-to-original in insertion order, and
substitute the placeholder.  Every step removes at least one open paren, so
fuel equal to the text length suffices. -/
def protectParensF :
    Nat → Nat → List (List Char × List Char) → List Char →
    List Char × List (List Char × List Char) × Nat
  | 0, counter, repl, s => (s, repl, counter)
  | fuel + 1, counter, repl, s =>
    match findInnerParen s with
    | none => (s, repl, counter)
    | some (pre, m, post) =>
      protectParensF fuel (counter + 1) (repl ++ [(parenPH counter, m)])
        (pre ++ parenPH counter ++ post)

/-- The while loop protecting curly groups, continuing the same counter. -/
def protectCurliesF :
    Nat → Nat → List (List Char × List Char) → List Char →
    List Char × List (List Char × List Char) × Nat
  | 0, counter, repl, s => (s, repl, counter)
  | fuel + 1, counter, repl, s =>
    match findInnerCurly s with
    | none => (s, repl, counter)
    | some (pre, m, post) =>
      protectCurliesF fuel (counter + 1) (repl ++ [(curlyPH counter, m)])
        (pre ++ curlyPH counter ++ post)

/-- `WildcardParser._protect_brackets`: parens pass then curly pass, shared
counter, returning the protected text and the placeholder mapping. -/
def protect_brackets (text : List Char) : List Char × List (List Char × List Char) :=
  let p := protectParensF text.length 0 [] text
  let q := protectCurliesF p.1.length p.2.2 p.2.1 p.1
  (q.1, q.2.1)

/-- `WildcardParser._restore_brackets`: one str.replace per recorded
placeholder, in insertion order. -/
def restore_brackets (text : List Char) (repl : List (List Char × List Char)) : List Char :=
  repl.foldl (fun r pr => replaceAll r pr.1 pr.2) text

/-- Split on a delimiter, strip each piece, drop blank pieces - the list
comprehension used throughout `parse_value_list`. -/
def splitDelims (d : Char) (l : List Char) : List (List Char) :=
  ((splitOnChar d l).map trim).filter (fun v => !v.isEmpty)

/-- The delimiter-selection block of `parse_value_list`, applied to the
bracket-protected text: newline first (each non-blank stripped line split on
pipe if present, else comma if present, else kept), else pipe, else comma,
else the whole stripped text as a single value. -/
def splitPhase (pt : List Char) : List (List Char) :=
  if '\n' ∈ pt then
    (splitOnChar '\n' pt).foldl (fun values line =>
      let l := trim line
      if l = [] then values
      else if '|' ∈ l then values ++ splitDelims '|' l
      else if ',' ∈ l then values ++ splitDelims ',' l
      else values ++ [l]) []
  else if '|' ∈ pt then splitDelims '|' pt
  else if ',' ∈ pt then splitDelims ',' pt
  else if trim pt = [] then [] else [trim pt]

/-- `WildcardParser.parse_value_list`: empty and whitespace-only guard,
bracket protection, delimiter split, restoration of each value, and dropping
of values that restore to the empty string. -/
def parse_value_list (text : List Char) : List (List Char) :=
  if text = [] ∨ trim text = [] then []
  else
    let pr := protect_brackets text
    ((splitPhase pr.1).map (fun v => restore_brackets v pr.2)).filter (fun v => !v.isEmpty)

/-- `WildcardParser.format_as_dynamic_prompts`: empty list to empty string, a
single value bare, otherwise the values joined by pipes inside braces. -/
def format_as_dynamic_prompts (values : List (List Char)) : List Char :=
  match values with
  | [] => []
  | [v] => v
  | _ => '\x7b' :: List.intercalate (strL "|") values ++ ['\x7d']

end WildcardParser

namespace TextProcessor

/-- The regex rewrite collapsing runs of space characters to a single space
(only the space character, as in the source pattern). -/
def collapseSpaces : List Char → List Char
  | [] => []
  | [c] => [c]
  | c1 :: c2 :: cs =>
    if c1 = ' ' ∧ c2 = ' ' then collapseSpaces (c2 :: cs)
    else c1 :: collapseSpaces (c2 :: cs)

/-- The regex rewrite normalizing optional-whitespace, comma,
optional-whitespace to comma-space: scan left to right, at each position try
the pattern (which must contain a comma), on a match emit comma-space and
resume after it, otherwise copy one character. -/
def normCommaF : Nat → List Char → List Char
  | 0, s => s
  | _ + 1, [] => []
  | fuel + 1, c :: cs =>
    match (c :: cs).dropWhile isSpace with
    | x :: rest =>
      if x = ',' then ',' :: ' ' :: normCommaF fuel (rest.dropWhile isSpace)
      else c :: normCommaF fuel cs
    | [] => c :: normCommaF fuel cs

/-- Comma-spacing normalization with sufficient fuel. -/
def normComma (s : List Char) : List Char := normCommaF s.length s

/-- `TextProcessor.clean_prompt`: collapse space runs, normalize comma
spacing, strip, and drop one trailing comma (stripping again). -/
def clean_prompt (text : List Char) : List Char :=
  if text = [] then []
  else
    let t1 := collapseSpaces text
    let t2 := normComma t1
    let t3 := trim t2
    if t3.getLast? = some ',' then trim t3.dropLast else t3

end TextProcessor

/-- The class-level `_sequential_indices` dictionary: a total lookup from node
keys to an optional stored cursor. -/
def SeqState : Type := List Char → Option Nat

namespace WildcardNode

/-- `WildcardNode.process`: parse the values, short-circuit to the empty
string on an empty list, then dispatch on the output mode.  The final branch
is the random mode; its `random.choice` is modelled by the explicit
`randomChoice` oracle argument.  Returns the output string and the updated
sequential-index state. -/
def process (st : SeqState) (randomChoice : List (List Char) → List Char)
    (wildcard_values : List Char) (output_mode : List Char)
    (fixed_index : Int) (unique_id : List Char) : List Char × SeqState :=
  let values := WildcardParser.parse_value_list wildcard_values
  if values = [] then ([], st)
  else if output_mode = strL "list (csv)" then (List.intercalate (strL ", ") values, st)
  else if output_mode = strL "dynamic_prompts" then
    (WildcardParser.format_as_dynamic_prompts values, st)
  else if output_mode = strL "fixed" then
    (values.getD (max 0 (min fixed_index ((values.length : Int) - 1))).toNat [], st)
  else if output_mode = strL "sequential" then
    let node_key := strL "wildcard_" ++ unique_id
    let cur := (st node_key).getD 0
    let index := cur % values.length
    (values.getD index [],
      fun k => if k = node_key then some ((index + 1) % values.length) else st k)
  else (randomChoice values, st)

/-- `WildcardNode.reset_sequential_index`: set the node's cursor to zero when
the key is present, otherwise leave the state unchanged. -/
def reset_sequential_index (unique_id : List Char) (st : SeqState) : SeqState :=
  let node_key := strL "wildcard_" ++ unique_id
  if (st node_key).isSome then (fun k => if k = node_key then some 0 else st k) else st

end WildcardNode

/-- Python substring membership (the `in` operator on strings): some position
of the subject starts with `pat`. -/
def containsSub (pat : List Char) : List Char → Bool
  | [] => pat.isEmpty
  | c :: cs => pat.isPrefixOf (c :: cs) || containsSub pat cs

namespace WildcardParser

/-- The rendered placeholder token for identifier `m`: open brace, the word
`wildcard_`, the identifier, close brace. -/
def tokStr (m : List Char) : List Char := strL "\x7bwildcard_" ++ m ++ ['\x7d']

end WildcardParser

/-- Text shape used by the substitution theorems: brace-free literal segments
interleaved with placeholder tokens. -/
inductive Piece where
  | seg : List Char → Piece
  | tok : List Char → Piece

/-- Rendering of one piece. -/
def renderPiece : Piece → List Char
  | .seg s => s
  | .tok m => WildcardParser.tokStr m

/-- Rendering of a piece list into text. -/
def render (ps : List Piece) : List Char := (ps.map renderPiece).flatten

/-- Well-formedness of a piece: a segment carries no brace character, a token
name is a non-empty identifier. -/
def WFPiece : Piece → Prop
  | .seg s => '\x7b' ∉ s ∧ '\x7d' ∉ s
  | .tok m => m ≠ [] ∧ ∀ c ∈ m, WildcardParser.isWordChar c = true

instance : DecidablePred WFPiece := fun p =>
  match p with
  | .seg _ => inferInstanceAs (Decidable (_ ∧ _))
  | .tok _ => inferInstanceAs (Decidable (_ ∧ _))

/-- Replace every token named `n` by the literal segment `v`. -/
def replaceTok (n v : List Char) (ps : List Piece) : List Piece :=
  ps.map fun p => match p with
    | .seg s => .seg s
    | .tok m => if m = n then .seg v else .tok m

/-- Names of the tokens of a piece list, in order. -/
def tokenNames (ps : List Piece) : List (List Char) :=
  ps.filterMap fun p => match p with | .seg _ => none | .tok m => some m

/-- Claim-side description of the per-line rule of the split phase: a blank
line yields nothing; otherwise the stripped line is split on pipe if it
contains one, else on comma if it contains one, else kept whole; pieces are
trimmed and blank pieces dropped. -/
def spec_split_line (line : List Char) : List (List Char) :=
  let l := trim line
  if l = [] then []
  else if '|' ∈ l then WildcardParser.splitDelims '|' l
  else if ',' ∈ l then WildcardParser.splitDelims ',' l
  else [l]

/-- Claim-side description of the whole split phase over the protected text:
newline splitting first with the per-line rule, else pipe over the whole
text, else comma, else the whole trimmed text as a single value. -/
def spec_split (pt : List Char) : List (List Char) :=
  if '\n' ∈ pt then ((splitOnChar '\n' pt).map spec_split_line).flatten
  else if '|' ∈ pt then WildcardParser.splitDelims '|' pt
  else if ',' ∈ pt then WildcardParser.splitDelims ',' pt
  else if trim pt = [] then [] else [trim pt]

/-- Claim-side parse pipeline: the code's guard, protection and restoration
around the claim-worded split phase. -/
def spec_parse (text : List Char) : List (List Char) :=
  if text = [] ∨ trim text = [] then []
  else
    let pr := WildcardParser.protect_brackets text
    ((spec_split pr.1).map (fun v => WildcardParser.restore_brackets v pr.2)).filter
      (fun v => !v.isEmpty)

/-! Helper lemmas: list scanning. -/

theorem takeWhile_append_all {p : Char → Bool} :
    ∀ {a b : List Char}, (∀ c ∈ a, p c = true) → (a ++ b).takeWhile p = a ++ b.takeWhile p := by
  intro a b h
  induction a with
  | nil => simp
  | cons c cs ih =>
    have hc := h c (by simp)
    simp only [List.cons_append, List.takeWhile_cons, hc, if_true]
    rw [ih (fun x hx => h x (by simp [hx]))]

theorem dropWhile_append_all {p : Char → Bool} :
    ∀ {a b : List Char}, (∀ c ∈ a, p c = true) → (a ++ b).dropWhile p = b.dropWhile p := by
  intro a b h
  induction a with
  | nil => simp
  | cons c cs ih =>
    have hc := h c (by simp)
    simp only [List.cons_append, List.dropWhile_cons, hc, if_true]
    exact ih (fun x hx => h x (by simp [hx]))

theorem isPrefixOf_append_self : ∀ (l r : List Char), l.isPrefixOf (l ++ r) = true := by
  intro l r
  induction l with
  | nil => simp [List.isPrefixOf]
  | cons c cs ih => simp [List.isPrefixOf, ih]

theorem isPrefixOf_append_cancel :
    ∀ (l a b : List Char), (l ++ a).isPrefixOf (l ++ b) = a.isPrefixOf b := by
  intro l a b
  induction l with
  | nil => rfl
  | cons c cs ih => simp [List.isPrefixOf, ih]

theorem prefix_through_append :
    ∀ (body pat : List Char) (c : Char) (rest : List Char), c ∉ pat →
      pat.isPrefixOf (body ++ c :: rest) = true → pat.isPrefixOf body = true := by
  intro body
  induction body with
  | nil =>
    intro pat c rest hc h
    cases pat with
    | nil => rfl
    | cons p ps =>
      simp only [List.nil_append, List.isPrefixOf, Bool.and_eq_true, beq_iff_eq] at h
      exact absurd (h.1 ▸ List.mem_cons_self p ps) hc
  | cons b bs ih =>
    intro pat c rest hc h
    cases pat with
    | nil => rfl
    | cons p ps =>
      simp only [List.cons_append, List.isPrefixOf, Bool.and_eq_true, beq_iff_eq] at h ⊢
      exact ⟨h.1, ih ps c rest (fun hm => hc (List.mem_cons_of_mem p hm)) h.2⟩

/-! Helper lemmas: str.replace. -/

theorem replaceAllF_fuel :
    ∀ (f1 f2 : Nat) (s pat new : List Char), pat ≠ [] → s.length ≤ f1 → s.length ≤ f2 →
      replaceAllF f1 s pat new = replaceAllF f2 s pat new := by
  intro f1
  induction f1 with
  | zero =>
    intro f2 s pat new hp h1 h2
    have hs : s = [] := List.eq_nil_of_length_eq_zero (Nat.le_zero.mp h1)
    subst hs
    cases f2 <;> rfl
  | succ a ih =>
    intro f2 s pat new hp h1 h2
    cases s with
    | nil => cases f2 <;> rfl
    | cons c cs =>
      cases f2 with
      | zero => simp at h2
      | succ k =>
        have hplen : 1 ≤ pat.length := List.length_pos.mpr hp
        simp only [List.length_cons] at h1 h2
        simp only [replaceAllF]
        by_cases hpre : pat.isPrefixOf (c :: cs) = true
        · rw [if_pos hpre, if_pos hpre]
          congr 1
          apply ih
          · exact hp
          · rw [List.length_drop]; simp only [List.length_cons]; omega
          · rw [List.length_drop]; simp only [List.length_cons]; omega
        · rw [if_neg hpre, if_neg hpre]
          congr 1
          exact ih k cs pat new hp (by omega) (by omega)

theorem replaceAll_cons (c : Char) (cs pat new : List Char) (hp : pat ≠ []) :
    replaceAll (c :: cs) pat new =
      if pat.isPrefixOf (c :: cs) = true then new ++ replaceAll ((c :: cs).drop pat.length) pat new
      else c :: replaceAll cs pat new := by
  have hplen : 1 ≤ pat.length := List.length_pos.mpr hp
  show replaceAllF (c :: cs).length (c :: cs) pat new = _
  rw [show (c :: cs).length = cs.length + 1 from rfl]
  simp only [replaceAllF]
  by_cases hpre : pat.isPrefixOf (c :: cs) = true
  · rw [if_pos hpre, if_pos hpre]
    congr 1
    apply replaceAllF_fuel _ _ _ _ _ hp
    · rw [List.length_drop]; simp only [List.length_cons]; omega
    · exact Nat.le_refl _
  · rw [if_neg hpre, if_neg hpre]
    rfl

theorem replaceAll_append_notHead (p : Char) (pt seg rest new : List Char)
    (hseg : ∀ c ∈ seg, c ≠ p) :
    replaceAll (seg ++ rest) (p :: pt) new = seg ++ replaceAll rest (p :: pt) new := by
  induction seg with
  | nil => simp
  | cons c cs ih =>
    have hc : c ≠ p := hseg c (by simp)
    rw [List.cons_append, replaceAll_cons _ _ _ _ (by simp)]
    have hpre : (p :: pt).isPrefixOf (c :: (cs ++ rest)) = false := by
      simp only [List.isPrefixOf, Bool.and_eq_false_iff]
      left
      simp [beq_eq_false_iff_ne]
      exact fun he => hc he.symm
    rw [if_neg (by simp [hpre])]
    rw [ih (fun x hx => hseg x (by simp [hx]))]
    rfl

theorem replaceAll_self_append (pat rest new : List Char) (hp : pat ≠ []) :
    replaceAll (pat ++ rest) pat new = new ++ replaceAll rest pat new := by
  cases pat with
  | nil => exact absurd rfl hp
  | cons p ps =>
    rw [List.cons_append, replaceAll_cons _ _ _ _ hp]
    rw [if_pos (by rw [← List.cons_append]; exact isPrefixOf_append_self (p :: ps) rest)]
    rw [← List.cons_append, List.drop_left]

theorem replaceAll_exact (pat new : List Char) (hp : pat ≠ []) :
    replaceAll pat pat new = new := by
  have h := replaceAll_self_append pat [] new hp
  rw [List.append_nil] at h
  rw [h, show replaceAll [] pat new = [] from rfl, List.append_nil]

/-! Helper lemmas: trimming. -/

theorem trim_cons_ne_nil {c : Char} {l : List Char} (h : isSpace c = false) :
    trim (c :: l) ≠ [] := by
  intro he
  unfold trim at he
  rw [List.dropWhile_cons, h] at he
  simp only [Bool.false_eq_true, if_false] at he
  have h2 : (c :: l).reverse.dropWhile isSpace = [] := by
    have := congrArg List.reverse he
    simpa using this
  rw [List.dropWhile_eq_nil_iff] at h2
  have := h2 c (by simp)
  rw [h] at this
  exact Bool.false_ne_true this

/-! Helper lemmas: the placeholder scan. -/

open WildcardParser in
theorem matchWildcardAt_length {s n rest : List Char}
    (h : matchWildcardAt s = some (n, rest)) : rest.length < s.length := by
  simp only [matchWildcardAt] at h
  split at h
  · next hpre =>
    have hlen10 : 10 ≤ s.length := by
      have h1 := ( List.isPrefixOf_iff_prefix.mp hpre).length_le
      have h2 : (strL "\x7bwildcard_").length = 10 := rfl
      omega
    split at h
    · next x rest' heq =>
      split at h
      · next hx =>
        have hr : rest = rest' := by
          simp only [Option.some.injEq, Prod.mk.injEq] at h
          exact h.2.symm
        subst hr
        have hsub : (x :: rest).length ≤ (s.drop 10).length := by
          rw [← heq]
          exact (List.dropWhile_sublist _).length_le
        rw [List.length_drop] at hsub
        simp only [List.length_cons] at hsub
        omega
      · exact absurd h (by simp)
    · exact absurd h (by simp)
  · exact absurd h (by simp)

open WildcardParser in
theorem findWildcardsF_fuel :
    ∀ (f1 f2 : Nat) (s : List Char), s.length ≤ f1 → s.length ≤ f2 →
      findWildcardsF f1 s = findWildcardsF f2 s := by
  intro f1
  induction f1 with
  | zero =>
    intro f2 s h1 h2
    have hs : s = [] := List.eq_nil_of_length_eq_zero (Nat.le_zero.mp h1)
    subst hs
    cases f2 <;> rfl
  | succ a ih =>
    intro f2 s h1 h2
    cases s with
    | nil => cases f2 <;> rfl
    | cons c cs =>
      cases f2 with
      | zero => simp at h2
      | succ k =>
        simp only [List.length_cons] at h1 h2
        rcases hm : matchWildcardAt (c :: cs) with _ | ⟨name, rest⟩ <;>
          simp only [findWildcardsF, hm]
        · exact ih k cs (by omega) (by omega)
        · have hlt := matchWildcardAt_length hm
          simp only [List.length_cons] at hlt
          congr 1
          exact ih k rest (by omega) (by omega)

open WildcardParser in
theorem findWildcards_cons_some {c : Char} {cs name rest : List Char}
    (h : matchWildcardAt (c :: cs) = some (name, rest)) :
    findWildcards (c :: cs) = name :: findWildcards rest := by
  show findWildcardsF (c :: cs).length (c :: cs) = _
  rw [show (c :: cs).length = cs.length + 1 from rfl]
  simp only [findWildcardsF, h]
  congr 1
  have hlt := matchWildcardAt_length h
  simp only [List.length_cons] at hlt
  exact findWildcardsF_fuel _ _ _ (by omega) (Nat.le_refl _)

open WildcardParser in
theorem findWildcards_cons_none {c : Char} {cs : List Char}
    (h : matchWildcardAt (c :: cs) = none) :
    findWildcards (c :: cs) = findWildcards cs := by
  show findWildcardsF (c :: cs).length (c :: cs) = _
  rw [show (c :: cs).length = cs.length + 1 from rfl]
  simp only [findWildcardsF, h]
  rfl

open WildcardParser in
theorem matchWildcardAt_none_head {c : Char} {cs : List Char} (h : c ≠ '\x7b') :
    matchWildcardAt (c :: cs) = none := by
  simp only [matchWildcardAt]
  rw [if_neg]
  intro hpre
  rw [show strL "\x7bwildcard_" = '\x7b' :: strL "wildcard_" from rfl] at hpre
  simp only [List.isPrefixOf, Bool.and_eq_true, beq_iff_eq] at hpre
  exact h hpre.1.symm

open WildcardParser in
theorem findWildcards_append_seg {s rest : List Char} (h : '\x7b' ∉ s) :
    findWildcards (s ++ rest) = findWildcards rest := by
  induction s with
  | nil => simp
  | cons c cs ih =>
    rw [List.cons_append,
      findWildcards_cons_none (matchWildcardAt_none_head
        (fun he => h (he ▸ List.mem_cons_self c cs)))]
    exact ih (fun hm => h (List.mem_cons_of_mem c hm))

open WildcardParser in
theorem findWildcards_no_brace {s : List Char} (h : '\x7b' ∉ s) : findWildcards s = [] := by
  have h2 := @findWildcards_append_seg s [] h
  simpa using h2

open WildcardParser in
theorem matchWildcardAt_tok (m rest : List Char) (hm : m ≠ [])
    (hw : ∀ c ∈ m, isWordChar c = true) :
    matchWildcardAt (tokStr m ++ rest) = some (m, rest) := by
  have hA : tokStr m ++ rest = strL "\x7bwildcard_" ++ (m ++ '\x7d' :: rest) := by
    simp [tokStr]
  rw [hA]
  simp only [matchWildcardAt]
  rw [if_pos (isPrefixOf_append_self _ _)]
  have hdrop : (strL "\x7bwildcard_" ++ (m ++ '\x7d' :: rest)).drop 10 = m ++ '\x7d' :: rest := by
    rw [show (10 : Nat) = (strL "\x7bwildcard_").length from rfl, List.drop_left]
  rw [hdrop]
  have hnw : isWordChar '\x7d' = false := by decide
  rw [takeWhile_append_all hw, dropWhile_append_all hw]
  rw [List.takeWhile_cons, List.dropWhile_cons, hnw]
  simp [hm]

open WildcardParser in
theorem findWildcards_tok (m rest : List Char) (hm : m ≠ [])
    (hw : ∀ c ∈ m, isWordChar c = true) :
    findWildcards (tokStr m ++ rest) = m :: findWildcards rest := by
  have h : tokStr m ++ rest = '\x7b' :: (strL "wildcard_" ++ m ++ ['\x7d'] ++ rest) := rfl
  rw [h]
  exact findWildcards_cons_some (h ▸ matchWildcardAt_tok m rest hm hw)

open WildcardParser in
theorem mem_dedupeAux {x : List Char} :
    ∀ {seen l : List (List Char)}, x ∈ l → x ∉ seen → x ∈ dedupeAux seen l := by
  intro seen l
  induction l generalizing seen with
  | nil => intro hx _; simp at hx
  | cons y ys ih =>
    intro hx hs
    simp only [dedupeAux]
    by_cases hy : y ∈ seen
    · rw [if_pos hy]
      rcases List.mem_cons.mp hx with he | hm
      · exact absurd (he ▸ hy) hs
      · exact ih hm hs
    · rw [if_neg hy]
      rcases List.mem_cons.mp hx with he | hm
      · exact he ▸ List.mem_cons_self _ _
      · by_cases hxy : x = y
        · exact hxy ▸ List.mem_cons_self _ _
        · exact List.mem_cons_of_mem _ (ih hm (by simp [hs, hxy]))

open WildcardParser in
theorem dedupeAux_subset {x : List Char} :
    ∀ {seen l : List (List Char)}, x ∈ dedupeAux seen l → x ∈ l := by
  intro seen l
  induction l generalizing seen with
  | nil => intro hx; simp [dedupeAux] at hx
  | cons y ys ih =>
    intro hx
    simp only [dedupeAux] at hx
    by_cases hy : y ∈ seen
    · rw [if_pos hy] at hx
      exact List.mem_cons_of_mem _ (ih hx)
    · rw [if_neg hy] at hx
      rcases List.mem_cons.mp hx with he | hm
      · exact he ▸ List.mem_cons_self _ _
      · exact List.mem_cons_of_mem _ (ih hm)

/-! Helper lemmas: placeholder tokens and rendered piece lists. -/

open WildcardParser in
theorem word_ne_lbrace {c : Char} (h : isWordChar c = true) : c ≠ '\x7b' := by
  intro he
  rw [he] at h
  exact absurd h (by decide)

open WildcardParser in
theorem tok_names_no_pre :
    ∀ (n m rest : List Char), (∀ c ∈ n, isWordChar c = true) →
      (∀ c ∈ m, isWordChar c = true) → n ≠ m →
      (n ++ ['\x7d']).isPrefixOf (m ++ '\x7d' :: rest) = false := by
  intro n
  induction n with
  | nil =>
    intro m rest _ hm hne
    cases m with
    | nil => exact absurd rfl hne
    | cons b bs =>
      simp only [List.nil_append, List.cons_append, List.isPrefixOf]
      have hb : b ≠ '\x7d' := by
        have hw := hm b (by simp)
        intro he
        rw [he] at hw
        exact absurd hw (by decide)
      have hbeq : ('\x7d' == b) = false := beq_eq_false_iff_ne.mpr (Ne.symm hb)
      simp [hbeq]
  | cons a as ih =>
    intro m rest hn hm hne
    cases m with
    | nil =>
      simp only [List.cons_append, List.nil_append, List.isPrefixOf]
      have ha : a ≠ '\x7d' := by
        have hw := hn a (by simp)
        intro he
        rw [he] at hw
        exact absurd hw (by decide)
      have haeq : (a == '\x7d') = false := beq_eq_false_iff_ne.mpr ha
      simp [haeq]
    | cons b bs =>
      simp only [List.cons_append, List.isPrefixOf, List.append_eq]
      by_cases hab : a = b
      · subst hab
        have hne2 : as ≠ bs := fun he => hne (by rw [he])
        rw [ih bs rest (fun c hc => hn c (by simp [hc])) (fun c hc => hm c (by simp [hc])) hne2]
        simp
      · have haeq : (a == b) = false := beq_eq_false_iff_ne.mpr hab
        simp [haeq]

open WildcardParser in
theorem tokStr_ne_nil (m : List Char) : tokStr m ≠ [] := by
  simp [tokStr, strL]

open WildcardParser in
theorem tokStr_eq_cons (m : List Char) :
    tokStr m = '\x7b' :: (strL "wildcard_" ++ m ++ ['\x7d']) := rfl

open WildcardParser in
theorem tokStr_inner_no_lbrace {m : List Char} (hm : ∀ c ∈ m, isWordChar c = true) :
    ∀ c ∈ strL "wildcard_" ++ m ++ ['\x7d'], c ≠ '\x7b' := by
  intro c hc
  rcases List.mem_append.mp hc with hc2 | hc2
  · rcases List.mem_append.mp hc2 with hc3 | hc3
    · have hnb : '\x7b' ∉ strL "wildcard_" := by decide
      exact fun he => hnb (he ▸ hc3)
    · exact word_ne_lbrace (hm c hc3)
  · have he : c = '\x7d' := by simpa using hc2
    rw [he]
    decide

theorem isPrefixOf_cons_cons (a b : Char) (as bs : List Char) :
    (a :: as).isPrefixOf (b :: bs) = (a == b && as.isPrefixOf bs) := rfl

open WildcardParser in
theorem replaceAll_tok_ne (m n rest v : List Char) (hm : ∀ c ∈ m, isWordChar c = true)
    (hn : ∀ c ∈ n, isWordChar c = true) (hne : m ≠ n) :
    replaceAll (tokStr m ++ rest) (tokStr n) v = tokStr m ++ replaceAll rest (tokStr n) v := by
  have hkey : tokStr m ++ rest = '\x7b' :: ((strL "wildcard_" ++ m ++ ['\x7d']) ++ rest) := by
    rw [tokStr_eq_cons m, List.cons_append]
  have hpre : (tokStr n).isPrefixOf ('\x7b' :: ((strL "wildcard_" ++ m ++ ['\x7d']) ++ rest)) =
      false := by
    rw [tokStr_eq_cons n, isPrefixOf_cons_cons]
    rw [show ('\x7b' == '\x7b') = true from rfl, Bool.true_and]
    have e1 : strL "wildcard_" ++ n ++ ['\x7d'] = strL "wildcard_" ++ (n ++ ['\x7d']) := by
      rw [List.append_assoc]
    have e2 : (strL "wildcard_" ++ m ++ ['\x7d']) ++ rest =
        strL "wildcard_" ++ (m ++ '\x7d' :: rest) := by
      simp [List.append_assoc]
    rw [e1, e2, isPrefixOf_append_cancel]
    exact tok_names_no_pre n m rest hn hm (fun he => hne he.symm)
  rw [hkey, replaceAll_cons _ _ _ _ (tokStr_ne_nil n),
    if_neg (by rw [hpre]; exact Bool.false_ne_true)]
  rw [tokStr_eq_cons n]
  rw [replaceAll_append_notHead _ _ _ _ _ (tokStr_inner_no_lbrace hm)]
  rw [← tokStr_eq_cons n, tokStr_eq_cons m, List.cons_append]

open WildcardParser in
theorem render_cons_seg (s : List Char) (ps : List Piece) :
    render (Piece.seg s :: ps) = s ++ render ps := by
  simp [render, renderPiece]

open WildcardParser in
theorem render_cons_tok (m : List Char) (ps : List Piece) :
    render (Piece.tok m :: ps) = tokStr m ++ render ps := by
  simp [render, renderPiece]

theorem replaceTok_cons_seg (n v s : List Char) (ps : List Piece) :
    replaceTok n v (Piece.seg s :: ps) = Piece.seg s :: replaceTok n v ps := rfl

theorem replaceTok_cons_tok_eq {m n : List Char} (v : List Char) (ps : List Piece) (h : m = n) :
    replaceTok n v (Piece.tok m :: ps) = Piece.seg v :: replaceTok n v ps := by
  simp [replaceTok, h]

theorem replaceTok_cons_tok_ne {m n : List Char} (v : List Char) (ps : List Piece) (h : ¬ m = n) :
    replaceTok n v (Piece.tok m :: ps) = Piece.tok m :: replaceTok n v ps := by
  simp [replaceTok, h]

theorem tokenNames_cons_seg (s : List Char) (ps : List Piece) :
    tokenNames (Piece.seg s :: ps) = tokenNames ps := rfl

theorem tokenNames_cons_tok (m : List Char) (ps : List Piece) :
    tokenNames (Piece.tok m :: ps) = m :: tokenNames ps := rfl

open WildcardParser in
theorem replaceAll_render (n v : List Char) (hn : ∀ c ∈ n, isWordChar c = true) :
    ∀ (ps : List Piece), (∀ p ∈ ps, WFPiece p) →
      replaceAll (render ps) (tokStr n) v = render (replaceTok n v ps) := by
  intro ps
  induction ps with
  | nil => intro _; rfl
  | cons p ps ih =>
    intro hps
    have hp := hps p (List.mem_cons_self p ps)
    have hrest : ∀ q ∈ ps, WFPiece q := fun q hq => hps q (List.mem_cons_of_mem p hq)
    cases p with
    | seg s =>
      rw [render_cons_seg, replaceTok_cons_seg, render_cons_seg]
      rw [tokStr_eq_cons n,
        replaceAll_append_notHead _ _ _ _ _ (fun c hc he => hp.1 (by rw [← he]; exact hc))]
      rw [← tokStr_eq_cons n, ih hrest]
    | tok m =>
      have hm1 : m ≠ [] := hp.1
      have hm2 : ∀ c ∈ m, isWordChar c = true := hp.2
      by_cases hmn : m = n
      · subst hmn
        rw [render_cons_tok, replaceTok_cons_tok_eq v ps rfl, render_cons_seg]
        rw [replaceAll_self_append _ _ _ (tokStr_ne_nil m), ih hrest]
      · rw [render_cons_tok, replaceTok_cons_tok_ne v ps hmn, render_cons_tok]
        rw [replaceAll_tok_ne m n _ v hm2 hn hmn, ih hrest]

open WildcardParser in
theorem findWildcards_render :
    ∀ (ps : List Piece), (∀ p ∈ ps, WFPiece p) →
      findWildcards (render ps) = tokenNames ps := by
  intro ps
  induction ps with
  | nil => intro _; rfl
  | cons p ps ih =>
    intro hps
    have hp := hps p (List.mem_cons_self p ps)
    have hrest : ∀ q ∈ ps, WFPiece q := fun q hq => hps q (List.mem_cons_of_mem p hq)
    cases p with
    | seg s =>
      rw [render_cons_seg, tokenNames_cons_seg, findWildcards_append_seg hp.1, ih hrest]
    | tok m =>
      rw [render_cons_tok, tokenNames_cons_tok, findWildcards_tok m _ hp.1 hp.2, ih hrest]

theorem WFPiece_replaceTok {n v : List Char} (hv1 : '\x7b' ∉ v) (hv2 : '\x7d' ∉ v) :
    ∀ {ps : List Piece}, (∀ p ∈ ps, WFPiece p) → ∀ p ∈ replaceTok n v ps, WFPiece p := by
  intro ps hps p hp
  simp only [replaceTok, List.mem_map] at hp
  obtain ⟨q, hq, he⟩ := hp
  subst he
  cases q with
  | seg s => exact hps _ hq
  | tok m =>
    by_cases hmn : m = n
    · simp only [hmn, if_true]
      exact ⟨hv1, hv2⟩
    · simp only [hmn, if_false]
      exact hps _ hq

theorem tokenNames_replaceTok_mem {n v x : List Char} :
    ∀ {ps : List Piece}, x ∈ tokenNames (replaceTok n v ps) → x ∈ tokenNames ps ∧ x ≠ n := by
  intro ps
  induction ps with
  | nil => intro h; simp [replaceTok, tokenNames] at h
  | cons p ps ih =>
    intro h
    cases p with
    | seg s =>
      rw [replaceTok_cons_seg, tokenNames_cons_seg] at h
      rw [tokenNames_cons_seg]
      exact ih h
    | tok m =>
      by_cases hmn : m = n
      · rw [replaceTok_cons_tok_eq v ps hmn, tokenNames_cons_seg] at h
        rw [tokenNames_cons_tok]
        obtain ⟨h1, h2⟩ := ih h
        exact ⟨List.mem_cons_of_mem _ h1, h2⟩
      · rw [replaceTok_cons_tok_ne v ps hmn, tokenNames_cons_tok] at h
        rw [tokenNames_cons_tok]
        rcases List.mem_cons.mp h with he | hm2
        · exact ⟨he ▸ List.mem_cons_self _ _, he ▸ hmn⟩
        · obtain ⟨h1, h2⟩ := ih hm2
          exact ⟨List.mem_cons_of_mem _ h1, h2⟩

open WildcardParser in
theorem tokenNames_WF {ps : List Piece} (hps : ∀ p ∈ ps, WFPiece p) :
    ∀ mm ∈ tokenNames ps, mm ≠ [] ∧ ∀ c ∈ mm, isWordChar c = true := by
  intro mm hmm
  simp only [tokenNames, List.mem_filterMap] at hmm
  obtain ⟨p, hp, he⟩ := hmm
  cases p with
  | seg s => simp at he
  | tok m2 =>
    simp only [Option.some.injEq] at he
    exact he ▸ hps _ hp

open WildcardParser in
theorem pass1_render :
    ∀ (values : List (List Char × List Char)) (ps : List Piece),
      (∀ p ∈ ps, WFPiece p) →
      (∀ kv ∈ values, (∀ c ∈ kv.1, isWordChar c = true) ∧ '\x7b' ∉ kv.2 ∧ '\x7d' ∉ kv.2) →
      ∃ ps2,
        values.foldl (fun r kv =>
          replaceAll r
            (if (strL "wildcard_").isPrefixOf kv.1
              then '\x7b' :: kv.1 ++ ['\x7d']
              else strL "\x7bwildcard_" ++ kv.1 ++ ['\x7d']) kv.2) (render ps) = render ps2 ∧
        (∀ p ∈ ps2, WFPiece p) := by
  intro values
  induction values with
  | nil => intro ps hps _; exact ⟨ps, rfl, hps⟩
  | cons kv values ih =>
    intro ps hps hvals
    obtain ⟨hk1, hk2, hk3⟩ := hvals kv (List.mem_cons_self kv values)
    have hrest := fun x hx => hvals x (List.mem_cons_of_mem kv hx)
    rw [List.foldl_cons]
    by_cases h : (strL "wildcard_").isPrefixOf kv.1 = true
    · obtain ⟨t, ht⟩ := List.isPrefixOf_iff_prefix.mp h
      have htw : ∀ c ∈ t, isWordChar c = true := fun c hc =>
        hk1 c (by rw [← ht]; exact List.mem_append_right _ hc)
      have hpat :
          (if (strL "wildcard_").isPrefixOf kv.1
            then '\x7b' :: kv.1 ++ ['\x7d']
            else strL "\x7bwildcard_" ++ kv.1 ++ ['\x7d']) = tokStr t := by
        rw [if_pos h, ← ht, tokStr, show strL "\x7bwildcard_" = '\x7b' :: strL "wildcard_" from rfl]
        simp [List.append_assoc]
      rw [hpat, replaceAll_render t kv.2 htw ps hps]
      exact ih (replaceTok t kv.2 ps) (WFPiece_replaceTok hk2 hk3 hps) hrest
    · have hpat :
          (if (strL "wildcard_").isPrefixOf kv.1
            then '\x7b' :: kv.1 ++ ['\x7d']
            else strL "\x7bwildcard_" ++ kv.1 ++ ['\x7d']) = tokStr kv.1 := by
        rw [if_neg h]; rfl
      rw [hpat, replaceAll_render kv.1 kv.2 hk1 ps hps]
      exact ih (replaceTok kv.1 kv.2 ps) (WFPiece_replaceTok hk2 hk3 hps) hrest

open WildcardParser in
theorem pass2_render :
    ∀ (L : List (List Char)) (ps : List Piece),
      (∀ p ∈ ps, WFPiece p) →
      (∀ f ∈ L, ∃ mm, (∀ c ∈ mm, isWordChar c = true) ∧ f = strL "wildcard_" ++ mm) →
      (∀ mm ∈ tokenNames ps, strL "wildcard_" ++ mm ∈ L) →
      ∃ ps2,
        L.foldl (fun r name => replaceAll r ('\x7b' :: name ++ ['\x7d']) []) (render ps) =
          render ps2 ∧
        (∀ p ∈ ps2, WFPiece p) ∧ tokenNames ps2 = [] := by
  intro L
  induction L with
  | nil =>
    intro ps hps _ hcov
    refine ⟨ps, rfl, hps, ?_⟩
    cases htn : tokenNames ps with
    | nil => rfl
    | cons mm tl =>
      have hmem : mm ∈ tokenNames ps := by rw [htn]; exact List.mem_cons_self mm tl
      exact absurd (hcov mm hmem) (by simp)
  | cons f L ih =>
    intro ps hps hL hcov
    obtain ⟨mm, hmw, hf⟩ := hL f (List.mem_cons_self f L)
    rw [List.foldl_cons]
    have hpat : '\x7b' :: f ++ ['\x7d'] = tokStr mm := by
      rw [hf, tokStr, show strL "\x7bwildcard_" = '\x7b' :: strL "wildcard_" from rfl]
      simp [List.append_assoc]
    rw [hpat, replaceAll_render mm [] hmw ps hps]
    apply ih (replaceTok mm [] ps) (WFPiece_replaceTok (by simp) (by simp) hps)
      (fun x hx => hL x (List.mem_cons_of_mem f hx))
    intro x hx
    obtain ⟨hx1, hx2⟩ := tokenNames_replaceTok_mem hx
    rcases List.mem_cons.mp (hcov x hx1) with he | hmem
    · rw [hf] at he
      exact absurd (List.append_cancel_left he) hx2
    · exact hmem

/-- Claim C4 (amended): on text made of brace-free segments and well-formed
placeholder tokens, with identifier keys and brace-free values, the output of
the substitution operation contains no occurrence of the placeholder pattern:
supplied placeholders are replaced by their value and every remaining one by
the empty string, and the operation is a total function (never an error). -/
theorem replace_wildcards_no_placeholder_survives (ps : List Piece)
    (values : List (List Char × List Char))
    (hps : ∀ p ∈ ps, WFPiece p)
    (hvals : ∀ kv ∈ values, (∀ c ∈ kv.1, WildcardParser.isWordChar c = true) ∧
      '\x7b' ∉ kv.2 ∧ '\x7d' ∉ kv.2) :
    WildcardParser.findWildcards (WildcardParser.replace_wildcards (render ps) values) = [] := by
  simp only [WildcardParser.replace_wildcards]
  obtain ⟨ps1, he1, hps1⟩ := pass1_render values ps hps hvals
  rw [he1]
  have hex : WildcardParser.extract_wildcard_names (render ps1) =
      WildcardParser.dedupeAux []
        ((tokenNames ps1).map (fun name => strL "wildcard_" ++ name)) := by
    rw [WildcardParser.extract_wildcard_names, findWildcards_render ps1 hps1]
  rw [hex]
  have hL : ∀ f ∈ WildcardParser.dedupeAux []
      ((tokenNames ps1).map (fun name => strL "wildcard_" ++ name)),
      ∃ mm, (∀ c ∈ mm, WildcardParser.isWordChar c = true) ∧ f = strL "wildcard_" ++ mm := by
    intro f hf
    have hf2 := dedupeAux_subset hf
    obtain ⟨mm, hmm, he⟩ := List.mem_map.mp hf2
    exact ⟨mm, (tokenNames_WF hps1 mm hmm).2, he.symm⟩
  have hcov : ∀ mm ∈ tokenNames ps1, strL "wildcard_" ++ mm ∈
      WildcardParser.dedupeAux []
        ((tokenNames ps1).map (fun name => strL "wildcard_" ++ name)) := by
    intro mm hmm
    exact mem_dedupeAux (List.mem_map_of_mem _ hmm) (by simp)
  obtain ⟨ps2, he2, hps2, htn⟩ := pass2_render _ ps1 hps1 hL hcov
  rw [he2, findWildcards_render ps2 hps2, htn]

/-- Witness for claim C4 at the text `token(color)` followed by the literal
segment ` car` with the value map sending `wildcard_color` to `red`. -/
theorem replace_wildcards_no_placeholder_survives_witness :
    WildcardParser.findWildcards
      (WildcardParser.replace_wildcards
        (render [Piece.tok (strL "color"), Piece.seg (strL " car")])
        [(strL "wildcard_color", strL "red")]) = [] :=
  replace_wildcards_no_placeholder_survives
    [Piece.tok (strL "color"), Piece.seg (strL " car")]
    [(strL "wildcard_color", strL "red")] (by decide) (by decide)

/-- Counterexample for claim C4 as stated: for text in which brace removal
splices surrounding characters into a fresh placeholder pattern, a
placeholder pattern does survive the substitution operation. -/
theorem replace_wildcards_spliced_token_survives_cex :
    WildcardParser.replace_wildcards (strL "\x7bwildcard_\x7bwildcard_a\x7db\x7d") [] =
      strL "\x7bwildcard_b\x7d" ∧
    WildcardParser.findWildcards
      (WildcardParser.replace_wildcards (strL "\x7bwildcard_\x7bwildcard_a\x7db\x7d") []) ≠
      [] := by decide

/-- Claim C2 (amended): a placeholder-pattern substring injected by a
substituted value is rescanned by the blank-fill pass and erased when no
later mapping covers it; substituting a value that is itself a placeholder
token yields the empty string, not the injected token verbatim. -/
theorem replace_wildcards_injected_token_blanked (a b : List Char) (hb : b ≠ [])
    (hbw : ∀ c ∈ b, WildcardParser.isWordChar c = true) :
    WildcardParser.replace_wildcards (WildcardParser.tokStr a)
      [(strL "wildcard_" ++ a, WildcardParser.tokStr b)] = [] := by
  simp only [WildcardParser.replace_wildcards, List.foldl_cons, List.foldl_nil]
  have hpat :
      (if (strL "wildcard_").isPrefixOf (strL "wildcard_" ++ a)
        then '\x7b' :: (strL "wildcard_" ++ a) ++ ['\x7d']
        else strL "\x7bwildcard_" ++ (strL "wildcard_" ++ a) ++ ['\x7d']) =
      WildcardParser.tokStr a := by
    rw [if_pos (isPrefixOf_append_self _ _), WildcardParser.tokStr,
      show strL "\x7bwildcard_" = '\x7b' :: strL "wildcard_" from rfl]
    simp [List.append_assoc]
  rw [hpat, replaceAll_exact _ _ (tokStr_ne_nil a)]
  have hex : WildcardParser.extract_wildcard_names (WildcardParser.tokStr b) =
      [strL "wildcard_" ++ b] := by
    rw [WildcardParser.extract_wildcard_names]
    rw [show WildcardParser.tokStr b = WildcardParser.tokStr b ++ [] from (List.append_nil _).symm]
    rw [findWildcards_tok b [] hb hbw]
    rfl
  rw [hex, List.foldl_cons, List.foldl_nil]
  have hpat2 : '\x7b' :: (strL "wildcard_" ++ b) ++ ['\x7d'] = WildcardParser.tokStr b := by
    rw [WildcardParser.tokStr, show strL "\x7bwildcard_" = '\x7b' :: strL "wildcard_" from rfl]
    simp [List.append_assoc]
  rw [hpat2, replaceAll_exact _ _ (tokStr_ne_nil b)]

/-- Witness for claim C2's amended theorem at identifiers `x` and `y`. -/
theorem replace_wildcards_injected_token_blanked_witness :
    WildcardParser.replace_wildcards (WildcardParser.tokStr (strL "x"))
      [(strL "wildcard_" ++ strL "x", WildcardParser.tokStr (strL "y"))] = [] :=
  replace_wildcards_injected_token_blanked (strL "x") (strL "y") (by decide) (by decide)

/-- Counterexample for claim C2 as stated: the injected placeholder-pattern
substring does not appear verbatim in the output; the blank-fill pass erases
it and the result is the empty string. -/
theorem replace_wildcards_injected_token_erased_cex :
    WildcardParser.replace_wildcards (strL "\x7bwildcard_a\x7d")
      [(strL "wildcard_a", strL "\x7bwildcard_b\x7d")] = [] ∧
    containsSub (strL "\x7bwildcard_b\x7d")
      (WildcardParser.replace_wildcards (strL "\x7bwildcard_a\x7d")
        [(strL "wildcard_a", strL "\x7bwildcard_b\x7d")]) = false := by decide

/-- Claim C1: the restoration pass is a single replace per recorded
placeholder in insertion order, so on a nested bracket group the inner
placeholder written into an outer group's recorded text is never restored:
parsing the nested input yields a value that still contains the internal
token `__PAREN_0__`, which therefore escapes the parse call. -/
theorem parse_value_list_nested_placeholder_escapes :
    WildcardParser.parse_value_list (strL "((a,b),c)") = [strL "(__PAREN_0__,c)"] ∧
    containsSub (strL "__PAREN_0__") (strL "(__PAREN_0__,c)") = true := by decide

/-- Claim C3: the clean operation is not idempotent.  Normalizing the comma
run of `a,,` produces `a, ,`; one trailing comma is stripped, leaving `a,`,
which still ends with a comma, and a second clean strips it again. -/
theorem clean_prompt_not_idempotent :
    TextProcessor.clean_prompt (strL "a,,") = strL "a," ∧
    TextProcessor.clean_prompt (TextProcessor.clean_prompt (strL "a,,")) = strL "a" ∧
    TextProcessor.clean_prompt (TextProcessor.clean_prompt (strL "a,,")) ≠
      TextProcessor.clean_prompt (strL "a,,") := by decide

open WildcardParser in
theorem splitPhase_eq_spec (pt : List Char) : splitPhase pt = spec_split pt := by
  simp only [splitPhase, spec_split]
  by_cases h : '\n' ∈ pt
  · rw [if_pos h, if_pos h]
    have H : ∀ (lines : List (List Char)) (acc : List (List Char)),
        lines.foldl (fun values line =>
          if trim line = [] then values
          else if '|' ∈ trim line then values ++ splitDelims '|' (trim line)
          else if ',' ∈ trim line then values ++ splitDelims ',' (trim line)
          else values ++ [trim line]) acc
        = acc ++ (lines.map spec_split_line).flatten := by
      intro lines
      induction lines with
      | nil => intro acc; simp
      | cons line lines ih =>
        intro acc
        rw [List.foldl_cons, ih]
        have hstep : (if trim line = [] then acc
            else if '|' ∈ trim line then acc ++ splitDelims '|' (trim line)
            else if ',' ∈ trim line then acc ++ splitDelims ',' (trim line)
            else acc ++ [trim line]) = acc ++ spec_split_line line := by
          simp only [spec_split_line]
          by_cases h1 : trim line = []
          · simp [h1]
          · by_cases h2 : '|' ∈ trim line
            · simp [h1, h2]
            · by_cases h3 : ',' ∈ trim line
              · simp [h1, h2, h3]
              · simp [h1, h2, h3]
        rw [hstep, List.map_cons, List.flatten_cons, List.append_assoc]
    have := H (splitOnChar '\n' pt) []
    simpa using this
  · rw [if_neg h, if_neg h]

/-- Claim C5: the parser applies delimiter precedence newline before pipe
before comma exactly as the claim words it (the code's accumulator loop over
lines equals the claim-side per-line description), and the claim's concrete
example holds. -/
theorem parse_value_list_delimiter_precedence :
    (∀ text, WildcardParser.parse_value_list text = spec_parse text) ∧
    WildcardParser.parse_value_list (strL "a\nb|c\nd,e") =
      [strL "a", strL "b", strL "c", strL "d", strL "e"] := by
  constructor
  · intro text
    simp only [WildcardParser.parse_value_list, spec_parse, splitPhase_eq_spec]
  · decide

/-! Helper lemmas: bracket protection. -/

open WildcardParser in
theorem findInnerParen_none {s : List Char} (h : '(' ∉ s) : findInnerParen s = none := by
  induction s with
  | nil => rfl
  | cons c cs ih =>
    have hc : ¬ c = '(' := fun he => h (he ▸ List.mem_cons_self c cs)
    simp only [findInnerParen]
    rw [if_neg hc, ih (fun hm => h (List.mem_cons_of_mem c hm))]

open WildcardParser in
theorem findInnerParen_group (body rest : List Char) (hb : ∀ c ∈ body, notParen c = true) :
    findInnerParen ('(' :: (body ++ ')' :: rest)) = some ([], '(' :: body ++ [')'], rest) := by
  have hdw : List.dropWhile notParen (body ++ ')' :: rest) = ')' :: rest := by
    rw [dropWhile_append_all hb, List.dropWhile_cons, show notParen ')' = false from by decide]
    simp
  have htw : List.takeWhile notParen (body ++ ')' :: rest) = body := by
    rw [takeWhile_append_all hb, List.takeWhile_cons, show notParen ')' = false from by decide]
    simp
  simp [findInnerParen, hdw, htw]

open WildcardParser in
theorem findInnerCurly_none {s : List Char} (h : '\x7b' ∉ s) : findInnerCurly s = none := by
  induction s with
  | nil => rfl
  | cons c cs ih =>
    have hc : c ≠ '\x7b' := fun he => h (he ▸ List.mem_cons_self c cs)
    simp only [findInnerCurly]
    rw [if_neg (fun hand => hc hand.1), ih (fun hm => h (List.mem_cons_of_mem c hm))]

open WildcardParser in
theorem findInnerCurly_group (body rest : List Char) (hb : ∀ c ∈ body, notCurly c = true)
    (hw : ¬ (strL "wildcard_").isPrefixOf (body ++ '\x7d' :: rest) = true) :
    findInnerCurly ('\x7b' :: (body ++ '\x7d' :: rest)) =
      some ([], '\x7b' :: body ++ ['\x7d'], rest) := by
  have hdw : List.dropWhile notCurly (body ++ '\x7d' :: rest) = '\x7d' :: rest := by
    rw [dropWhile_append_all hb, List.dropWhile_cons, show notCurly '\x7d' = false from by decide]
    simp
  have htw : List.takeWhile notCurly (body ++ '\x7d' :: rest) = body := by
    rw [takeWhile_append_all hb, List.takeWhile_cons, show notCurly '\x7d' = false from by decide]
    simp
  simp [findInnerCurly, hdw, htw, hw]

open WildcardParser in
theorem protectParensF_nomatch (fuel counter : Nat) (repl : List (List Char × List Char))
    (s : List Char) (h : findInnerParen s = none) :
    protectParensF fuel counter repl s = (s, repl, counter) := by
  cases fuel <;> simp [protectParensF, h]

open WildcardParser in
theorem protectParensF_step (fuel counter : Nat) (repl : List (List Char × List Char))
    (s pre m post : List Char) (h : findInnerParen s = some (pre, m, post)) :
    protectParensF (fuel + 1) counter repl s =
      protectParensF fuel (counter + 1) (repl ++ [(parenPH counter, m)])
        (pre ++ parenPH counter ++ post) := by
  simp [protectParensF, h]

open WildcardParser in
theorem protectCurliesF_nomatch (fuel counter : Nat) (repl : List (List Char × List Char))
    (s : List Char) (h : findInnerCurly s = none) :
    protectCurliesF fuel counter repl s = (s, repl, counter) := by
  cases fuel <;> simp [protectCurliesF, h]

open WildcardParser in
theorem protectCurliesF_step (fuel counter : Nat) (repl : List (List Char × List Char))
    (s pre m post : List Char) (h : findInnerCurly s = some (pre, m, post)) :
    protectCurliesF (fuel + 1) counter repl s =
      protectCurliesF fuel (counter + 1) (repl ++ [(curlyPH counter, m)])
        (pre ++ curlyPH counter ++ post) := by
  simp [protectCurliesF, h]

open WildcardParser in
theorem protect_brackets_paren_group (body : List Char) (h1 : '(' ∉ body) (h2 : ')' ∉ body) :
    protect_brackets ('(' :: body ++ strL "), c") =
      (strL "__PAREN_0__, c", [(strL "__PAREN_0__", '(' :: body ++ [')'])]) := by
  have hb : ∀ c ∈ body, notParen c = true := by
    intro c hc
    have hcp : c ≠ '(' := fun he => h1 (he ▸ hc)
    have hcq : c ≠ ')' := fun he => h2 (he ▸ hc)
    simp [notParen, hcp, hcq]
  have hfind : findInnerParen ('(' :: body ++ strL "), c") =
      some ([], '(' :: body ++ [')'], strL ", c") := by
    rw [show ('(' :: body ++ strL "), c") = '(' :: (body ++ ')' :: strL ", c") from rfl]
    exact findInnerParen_group body (strL ", c") hb
  have hlen : ('(' :: body ++ strL "), c").length = body.length + 4 + 1 := by
    rw [List.length_append, List.length_cons, show (strL "), c").length = 4 from rfl]
  have hparen : protectParensF ('(' :: body ++ strL "), c").length 0 []
      ('(' :: body ++ strL "), c") =
      (strL "__PAREN_0__, c", [(strL "__PAREN_0__", '(' :: body ++ [')'])], 1) := by
    rw [hlen, protectParensF_step _ _ _ _ _ _ _ hfind]
    rw [show WildcardParser.parenPH 0 = strL "__PAREN_0__" from by decide]
    rw [show ([] : List Char) ++ strL "__PAREN_0__" ++ strL ", c" = strL "__PAREN_0__, c" from by
      decide]
    rw [protectParensF_nomatch _ _ _ _ (by decide)]
    rfl
  simp only [protect_brackets, hparen]
  rw [protectCurliesF_nomatch _ _ _ _ (by decide)]

open WildcardParser in
theorem protect_brackets_curly_group (body : List Char) (h1 : '(' ∉ body)
    (h3 : '\x7b' ∉ body) (h4 : '\x7d' ∉ body)
    (h5 : ¬ (strL "wildcard_").isPrefixOf body = true) :
    protect_brackets ('\x7b' :: body ++ strL "\x7d, c") =
      (strL "__CURLY_0__, c", [(strL "__CURLY_0__", '\x7b' :: body ++ ['\x7d'])]) := by
  have hb : ∀ c ∈ body, notCurly c = true := by
    intro c hc
    have hcp : c ≠ '\x7b' := fun he => h3 (he ▸ hc)
    have hcq : c ≠ '\x7d' := fun he => h4 (he ▸ hc)
    simp [notCurly, hcp, hcq]
  have hnp : '(' ∉ ('\x7b' :: body ++ strL "\x7d, c") := by
    intro hm
    rw [show ('\x7b' :: body ++ strL "\x7d, c") = '\x7b' :: (body ++ strL "\x7d, c") from rfl]
      at hm
    rcases List.mem_cons.mp hm with he | hm2
    · exact absurd he (by decide)
    · rcases List.mem_append.mp hm2 with hx | hx
      · exact h1 hx
      · exact absurd hx (by decide)
  have hw : ¬ (strL "wildcard_").isPrefixOf (body ++ '\x7d' :: strL ", c") = true := by
    intro hpre
    exact h5 (prefix_through_append body (strL "wildcard_") '\x7d' (strL ", c")
      (by decide) hpre)
  have hfind : findInnerCurly ('\x7b' :: body ++ strL "\x7d, c") =
      some ([], '\x7b' :: body ++ ['\x7d'], strL ", c") := by
    rw [show ('\x7b' :: body ++ strL "\x7d, c") = '\x7b' :: (body ++ '\x7d' :: strL ", c")
      from rfl]
    exact findInnerCurly_group body (strL ", c") hb hw
  have hlen : ('\x7b' :: body ++ strL "\x7d, c").length = body.length + 4 + 1 := by
    rw [List.length_append, List.length_cons, show (strL "\x7d, c").length = 4 from rfl]
  have hparen : protectParensF ('\x7b' :: body ++ strL "\x7d, c").length 0 []
      ('\x7b' :: body ++ strL "\x7d, c") =
      ('\x7b' :: body ++ strL "\x7d, c", [], 0) :=
    protectParensF_nomatch _ _ _ _ (findInnerParen_none hnp)
  have hcurly : protectCurliesF ('\x7b' :: body ++ strL "\x7d, c").length 0 []
      ('\x7b' :: body ++ strL "\x7d, c") =
      (strL "__CURLY_0__, c", [(strL "__CURLY_0__", '\x7b' :: body ++ ['\x7d'])], 1) := by
    rw [hlen, protectCurliesF_step _ _ _ _ _ _ _ hfind]
    rw [show WildcardParser.curlyPH 0 = strL "__CURLY_0__" from by decide]
    rw [show ([] : List Char) ++ strL "__CURLY_0__" ++ strL ", c" = strL "__CURLY_0__, c" from by
      decide]
    rw [protectCurliesF_nomatch _ _ _ _ (by decide)]
    rfl
  simp only [protect_brackets, hparen]
  rw [hcurly]

open WildcardParser in
theorem parse_paren_group (body : List Char) (h1 : '(' ∉ body) (h2 : ')' ∉ body) :
    parse_value_list ('(' :: body ++ strL "), c") = ['(' :: body ++ strL ")", strL "c"] := by
  have hguard :
      ¬ (('(' :: body ++ strL "), c") = [] ∨ trim ('(' :: body ++ strL "), c") = []) := by
    rintro (he | he)
    · exact List.cons_ne_nil _ _ (List.append_eq_nil.mp he).1
    · rw [show ('(' :: body ++ strL "), c") = '(' :: (body ++ strL "), c") from rfl] at he
      exact trim_cons_ne_nil (by decide) he
  simp only [parse_value_list]
  rw [if_neg hguard, protect_brackets_paren_group body h1 h2]
  rw [show splitPhase (strL "__PAREN_0__, c") = [strL "__PAREN_0__", strL "c"] from by decide]
  simp only [List.map_cons, List.map_nil]
  have hr1 : restore_brackets (strL "__PAREN_0__")
      [(strL "__PAREN_0__", '(' :: body ++ [')'])] = '(' :: body ++ [')'] := by
    simp only [restore_brackets, List.foldl_cons, List.foldl_nil]
    exact replaceAll_exact _ _ (by decide)
  have hr2 : restore_brackets (strL "c")
      [(strL "__PAREN_0__", '(' :: body ++ [')'])] = strL "c" := by
    simp only [restore_brackets, List.foldl_cons, List.foldl_nil]
    rw [show strL "c" = 'c' :: [] from rfl, replaceAll_cons _ _ _ _ (by decide)]
    rw [if_neg (by decide)]
    rfl
  rw [hr1, hr2]
  rw [show ('(' :: body ++ [')'] : List Char) = '(' :: (body ++ [')']) from rfl]
  simp [List.filter]
  all_goals decide

open WildcardParser in
theorem parse_curly_group (body : List Char) (h1 : '(' ∉ body) (h3 : '\x7b' ∉ body)
    (h4 : '\x7d' ∉ body) (h5 : ¬ (strL "wildcard_").isPrefixOf body = true) :
    parse_value_list ('\x7b' :: body ++ strL "\x7d, c") =
      ['\x7b' :: body ++ strL "\x7d", strL "c"] := by
  have hguard :
      ¬ (('\x7b' :: body ++ strL "\x7d, c") = [] ∨ trim ('\x7b' :: body ++ strL "\x7d, c") = []) := by
    rintro (he | he)
    · exact List.cons_ne_nil _ _ (List.append_eq_nil.mp he).1
    · rw [show ('\x7b' :: body ++ strL "\x7d, c") = '\x7b' :: (body ++ strL "\x7d, c") from rfl]
        at he
      exact trim_cons_ne_nil (by decide) he
  simp only [parse_value_list]
  rw [if_neg hguard, protect_brackets_curly_group body h1 h3 h4 h5]
  rw [show splitPhase (strL "__CURLY_0__, c") = [strL "__CURLY_0__", strL "c"] from by decide]
  simp only [List.map_cons, List.map_nil]
  have hr1 : restore_brackets (strL "__CURLY_0__")
      [(strL "__CURLY_0__", '\x7b' :: body ++ ['\x7d'])] = '\x7b' :: body ++ ['\x7d'] := by
    simp only [restore_brackets, List.foldl_cons, List.foldl_nil]
    exact replaceAll_exact _ _ (by decide)
  have hr2 : restore_brackets (strL "c")
      [(strL "__CURLY_0__", '\x7b' :: body ++ ['\x7d'])] = strL "c" := by
    simp only [restore_brackets, List.foldl_cons, List.foldl_nil]
    rw [show strL "c" = 'c' :: [] from rfl, replaceAll_cons _ _ _ _ (by decide)]
    rw [if_neg (by decide)]
    rfl
  rw [hr1, hr2]
  rw [show ('\x7b' :: body ++ ['\x7d'] : List Char) = '\x7b' :: (body ++ ['\x7d']) from rfl]
  simp [List.filter]
  all_goals decide

/-- Claim C6 (amended): a balanced non-nested parenthesized group survives
parsing as one atomic value with its internal delimiters preserved literally
(the claim's concrete example, and in general for any paren-free body), and
a curly-brace group with bracket-free body is protected exactly when the
body does not begin with the literal `wildcard_` - the code's exception is
prefix-based, not full-placeholder-pattern-based. -/
theorem parse_value_list_bracket_protection :
    WildcardParser.parse_value_list (strL "(a, b), c") = [strL "(a, b)", strL "c"] ∧
    (∀ body : List Char, '(' ∉ body → ')' ∉ body →
      WildcardParser.parse_value_list ('(' :: body ++ strL "), c") =
        ['(' :: body ++ strL ")", strL "c"]) ∧
    (∀ body : List Char, '(' ∉ body → '\x7b' ∉ body → '\x7d' ∉ body →
      ¬ (strL "wildcard_").isPrefixOf body = true →
      WildcardParser.parse_value_list ('\x7b' :: body ++ strL "\x7d, c") =
        ['\x7b' :: body ++ strL "\x7d", strL "c"]) :=
  ⟨by decide, parse_paren_group, parse_curly_group⟩

/-- Witness for claim C6's amended theorem: a paren group with an internal
pipe and a curly group with an internal blank survive as atomic values. -/
theorem parse_value_list_bracket_protection_witness :
    WildcardParser.parse_value_list ('(' :: strL "x|y" ++ strL "), c") =
      ['(' :: strL "x|y" ++ strL ")", strL "c"] ∧
    WildcardParser.parse_value_list ('\x7b' :: strL "a b" ++ strL "\x7d, c") =
      ['\x7b' :: strL "a b" ++ strL "\x7d", strL "c"] :=
  ⟨parse_value_list_bracket_protection.2.1 (strL "x|y") (by decide) (by decide),
   parse_value_list_bracket_protection.2.2 (strL "a b") (by decide) (by decide) (by decide)
     (by decide)⟩

/-- Counterexample for claim C6 as stated: the group at the head of this
input does not match the placeholder pattern (its body has a comma), so per
the claim it should be protected; the code's prefix-based exception leaves
it unprotected and it is split on the internal comma. -/
theorem parse_value_list_curly_exception_cex :
    WildcardParser.parse_value_list (strL "\x7bwildcard_a,b\x7d, c") =
      [strL "\x7bwildcard_a", strL "b\x7d", strL "c"] ∧
    WildcardParser.parse_value_list (strL "\x7bwildcard_a,b\x7d, c") ≠
      [strL "\x7bwildcard_a,b\x7d", strL "c"] := by decide

/-! Helper lemmas: the node's process operation. -/

open WildcardParser WildcardNode in
theorem process_sequential_eq (st : SeqState) (rc : List (List Char) → List Char)
    (text : List Char) (values : List (List Char)) (fi : Int) (uid : List Char)
    (hparse : parse_value_list text = values) (hne : values ≠ []) :
    process st rc text (strL "sequential") fi uid =
      (values.getD (((st (strL "wildcard_" ++ uid)).getD 0) % values.length) [],
        fun k => if k = strL "wildcard_" ++ uid then
          some ((((st (strL "wildcard_" ++ uid)).getD 0) % values.length + 1) % values.length)
        else st k) := by
  simp only [process, hparse]
  rw [if_neg hne, if_neg (by decide), if_neg (by decide), if_neg (by decide)]
  exact if_pos trivial

/-- Claim C9: when the parsed value list is empty (in particular for empty
and whitespace-only text), process returns the empty string for every output
mode, and the sequential state is returned unchanged - no selection policy
logic is reached. -/
theorem wildcard_empty_values_short_circuit (st : SeqState)
    (rc : List (List Char) → List Char) (text mode : List Char) (fi : Int) (uid : List Char)
    (hparse : WildcardParser.parse_value_list text = []) :
    WildcardNode.process st rc text mode fi uid = ([], st) := by
  simp only [WildcardNode.process, hparse]
  exact if_pos trivial

/-- Witness for claim C9 at whitespace-only text in sequential mode. -/
theorem wildcard_empty_values_short_circuit_witness :
    WildcardNode.process (fun _ => none) (fun _ => []) (strL "   ") (strL "sequential") 0
      (strL "1") = ([], fun _ => none) :=
  wildcard_empty_values_short_circuit (fun _ => none) (fun _ => []) (strL "   ")
    (strL "sequential") 0 (strL "1") (by decide)

/-- Claim C8: fixed-mode selection clamps the requested index into the valid
range and returns the element there; negative and out-of-range indices never
error. -/
theorem wildcard_fixed_index_clamped (st : SeqState) (rc : List (List Char) → List Char)
    (text : List Char) (values : List (List Char)) (fi : Int) (uid : List Char)
    (hparse : WildcardParser.parse_value_list text = values) (hne : values ≠ []) :
    (max 0 (min fi ((values.length : Int) - 1))).toNat < values.length ∧
    (WildcardNode.process st rc text (strL "fixed") fi uid).1 =
      values.getD (max 0 (min fi ((values.length : Int) - 1))).toNat [] := by
  have hpos : 0 < values.length := List.length_pos.mpr hne
  constructor
  · have h1 : min fi ((values.length : Int) - 1) ≤ (values.length : Int) - 1 := min_le_right _ _
    have h2 : (0 : Int) ≤ max 0 (min fi ((values.length : Int) - 1)) := le_max_left _ _
    have h3 : max 0 (min fi ((values.length : Int) - 1)) ≤ (values.length : Int) - 1 :=
      max_le (by omega) h1
    generalize hgen : max 0 (min fi ((values.length : Int) - 1)) = w at h2 h3 ⊢
    omega
  · simp only [WildcardNode.process, hparse]
    rw [if_neg hne, if_neg (by decide), if_neg (by decide), if_pos trivial]

/-- Witness for claim C8 at a two-element list and the negative requested
index `-5`, which clamps to index zero. -/
theorem wildcard_fixed_index_clamped_witness :
    (max 0 (min (-5) (([strL "a", strL "b"].length : Int) - 1))).toNat <
      [strL "a", strL "b"].length ∧
    (WildcardNode.process (fun _ => none) (fun _ => []) (strL "a,b") (strL "fixed") (-5)
      (strL "1")).1 =
      [strL "a", strL "b"].getD
        (max 0 (min (-5) (([strL "a", strL "b"].length : Int) - 1))).toNat [] :=
  wildcard_fixed_index_clamped (fun _ => none) (fun _ => []) (strL "a,b") [strL "a", strL "b"]
    (-5) (strL "1") (by decide) (by decide)

/-- Claim C10: after a sequential-mode invocation over a non-empty parsed
list, the stored cursor for the node's key is a natural number strictly below
the list length (it is stored already reduced modulo the list length; an
unseen key is treated as cursor zero). -/
theorem wildcard_sequential_cursor_in_range (st : SeqState)
    (rc : List (List Char) → List Char) (text : List Char) (values : List (List Char))
    (fi : Int) (uid : List Char)
    (hparse : WildcardParser.parse_value_list text = values) (hne : values ≠ []) :
    ∃ c : Nat, (WildcardNode.process st rc text (strL "sequential") fi uid).2
      (strL "wildcard_" ++ uid) = some c ∧ c < values.length := by
  rw [process_sequential_eq st rc text values fi uid hparse hne]
  refine ⟨(((st (strL "wildcard_" ++ uid)).getD 0) % values.length + 1) % values.length, ?_,
    Nat.mod_lt _ (List.length_pos.mpr hne)⟩
  simp

/-- Witness for claim C10 at a fresh key over a two-element list. -/
theorem wildcard_sequential_cursor_in_range_witness :
    ∃ c : Nat, (WildcardNode.process (fun _ => none) (fun _ => []) (strL "a,b")
      (strL "sequential") 0 (strL "9")).2 (strL "wildcard_" ++ strL "9") = some c ∧
      c < [strL "a", strL "b"].length :=
  wildcard_sequential_cursor_in_range (fun _ => none) (fun _ => []) (strL "a,b")
    [strL "a", strL "b"] 0 (strL "9") (by decide) (by decide)

/-- Claim C7: sequential selection over a fresh key and a fixed three-element
list is a round-robin x, y, z, x, and after a reset the next selection is x
again. -/
theorem wildcard_sequential_round_robin (st : SeqState)
    (rc : List (List Char) → List Char) (text x y z uid : List Char)
    (hfresh : st (strL "wildcard_" ++ uid) = none)
    (hparse : WildcardParser.parse_value_list text = [x, y, z]) :
    let r1 := WildcardNode.process st rc text (strL "sequential") 0 uid
    let r2 := WildcardNode.process r1.2 rc text (strL "sequential") 0 uid
    let r3 := WildcardNode.process r2.2 rc text (strL "sequential") 0 uid
    let r4 := WildcardNode.process r3.2 rc text (strL "sequential") 0 uid
    let r5 := WildcardNode.process (WildcardNode.reset_sequential_index uid r4.2) rc text
      (strL "sequential") 0 uid
    r1.1 = x ∧ r2.1 = y ∧ r3.1 = z ∧ r4.1 = x ∧ r5.1 = x := by
  intro r1 r2 r3 r4 r5
  have step : ∀ (s : SeqState) (cur : Nat),
      s (strL "wildcard_" ++ uid) = some cur ∨
        (s (strL "wildcard_" ++ uid) = none ∧ cur = 0) →
      WildcardNode.process s rc text (strL "sequential") 0 uid =
        ([x, y, z].getD (cur % 3) [],
          fun k => if k = strL "wildcard_" ++ uid then some ((cur % 3 + 1) % 3) else s k) := by
    intro s cur hcur
    rw [process_sequential_eq s rc text [x, y, z] 0 uid hparse (by simp)]
    rcases hcur with h | ⟨h, hc⟩
    · rw [h]
      rfl
    · rw [h, hc]
      rfl
  have e1 := step st 0 (Or.inr ⟨hfresh, rfl⟩)
  have hst1 : r1.2 (strL "wildcard_" ++ uid) = some 1 := by
    show (WildcardNode.process st rc text (strL "sequential") 0 uid).2
      (strL "wildcard_" ++ uid) = some 1
    rw [e1]
    simp
  have e2 := step r1.2 1 (Or.inl hst1)
  have hst2 : r2.2 (strL "wildcard_" ++ uid) = some 2 := by
    show (WildcardNode.process r1.2 rc text (strL "sequential") 0 uid).2
      (strL "wildcard_" ++ uid) = some 2
    rw [e2]
    simp
  have e3 := step r2.2 2 (Or.inl hst2)
  have hst3 : r3.2 (strL "wildcard_" ++ uid) = some 0 := by
    show (WildcardNode.process r2.2 rc text (strL "sequential") 0 uid).2
      (strL "wildcard_" ++ uid) = some 0
    rw [e3]
    simp
  have e4 := step r3.2 0 (Or.inl hst3)
  have hst4 : r4.2 (strL "wildcard_" ++ uid) = some 1 := by
    show (WildcardNode.process r3.2 rc text (strL "sequential") 0 uid).2
      (strL "wildcard_" ++ uid) = some 1
    rw [e4]
    simp
  have hst5 : (WildcardNode.reset_sequential_index uid r4.2) (strL "wildcard_" ++ uid) =
      some 0 := by
    simp only [WildcardNode.reset_sequential_index]
    rw [hst4]
    simp
  have e5 := step (WildcardNode.reset_sequential_index uid r4.2) 0 (Or.inl hst5)
  refine ⟨?_, ?_, ?_, ?_, ?_⟩
  · show (WildcardNode.process st rc text (strL "sequential") 0 uid).1 = x
    rw [e1]
    rfl
  · show (WildcardNode.process r1.2 rc text (strL "sequential") 0 uid).1 = y
    rw [e2]
    rfl
  · show (WildcardNode.process r2.2 rc text (strL "sequential") 0 uid).1 = z
    rw [e3]
    rfl
  · show (WildcardNode.process r3.2 rc text (strL "sequential") 0 uid).1 = x
    rw [e4]
    rfl
  · show (WildcardNode.process (WildcardNode.reset_sequential_index uid r4.2) rc text
      (strL "sequential") 0 uid).1 = x
    rw [e5]
    rfl

/-- Witness for claim C7 at the list text `x,y,z` and a fresh node key. -/
theorem wildcard_sequential_round_robin_witness :
    let r1 := WildcardNode.process (fun _ => none) (fun _ => []) (strL "x,y,z")
      (strL "sequential") 0 (strL "7")
    let r2 := WildcardNode.process r1.2 (fun _ => []) (strL "x,y,z") (strL "sequential") 0
      (strL "7")
    let r3 := WildcardNode.process r2.2 (fun _ => []) (strL "x,y,z") (strL "sequential") 0
      (strL "7")
    let r4 := WildcardNode.process r3.2 (fun _ => []) (strL "x,y,z") (strL "sequential") 0
      (strL "7")
    let r5 := WildcardNode.process (WildcardNode.reset_sequential_index (strL "7") r4.2)
      (fun _ => []) (strL "x,y,z") (strL "sequential") 0 (strL "7")
    r1.1 = strL "x" ∧ r2.1 = strL "y" ∧ r3.1 = strL "z" ∧ r4.1 = strL "x" ∧ r5.1 = strL "x" :=
  wildcard_sequential_round_robin (fun _ => none) (fun _ => []) (strL "x,y,z") (strL "x")
    (strL "y") (strL "z") (strL "7") rfl (by decide)
